import Mathlib

/-!
Verification of the redpanda log-storage spec claims against a shallow
embedding of the repository sources.

Sections:
* Fragmented byte buffer (src/v/bytes/iobuf.h)
* Segment set recovery and max-offset assignment (src/v/storage/log_manager.cc)
* Log manager directory scan (src/v/storage/log_manager.cc)
* Log reader committed-offset safety (src/v/storage/log_reader.cc)
* WAL writer term handling (src/v/filesystem/wal_writer_node.cc)
* Spec-modelled Log append/truncate (storage log implementation is not in the
  provided sources; modelled from the specification, sections 4.8 and 8)
-/

/-! ## Fragmented byte buffer: src/v/bytes/iobuf.h

An `iobuf` is an ordered list of fragments plus a running `_size` counter.
Fragments are modelled as their byte contents; `_size` is carried explicitly
because the code maintains it incrementally (the well-formedness invariant is
that it equals the total number of bytes). -/

structure Iobuf where
  frags : List (List UInt8)
  size : Nat
deriving DecidableEq, Repr

/-- The byte sequence held by the buffer: concatenation of its fragments
(the order seen by `io_byte_iterator`). -/
def Iobuf.bytes (b : Iobuf) : List UInt8 :=
  b.frags.flatten

/-- Invariant maintained by every iobuf operation: `_size` equals the sum of
the fragment sizes, i.e. the length of the byte sequence. -/
def Iobuf.wf (b : Iobuf) : Prop :=
  b.size = b.bytes.length

instance (b : Iobuf) : Decidable b.wf := by
  unfold Iobuf.wf
  infer_instance

/-- The byte-compare loop of `iobuf::operator==`: advances both iterators
while the left iterator has not reached its end, comparing byte by byte.
The loop never tests the right iterator (the C++ code dereferences it
unconditionally); running past its end is undefined behaviour, modelled as
an unequal result. -/
def bytesEqLoop : List UInt8 → List UInt8 → Bool
  | [], _ => true
  | _ :: _, [] => false
  | l :: ls, r :: rs => l == r && bytesEqLoop ls rs

/-- `iobuf::operator==`: first compares `_size`, then the bytes. -/
def Iobuf.beq (a b : Iobuf) : Bool :=
  a.size == b.size && bytesEqLoop a.bytes b.bytes

/-- `iobuf::operator!=`: literally the negation of `operator==`. -/
def Iobuf.bne (a b : Iobuf) : Bool :=
  !(Iobuf.beq a b)

/-- The loop of `iobuf::trim_front(n)`, operating on the fragment list and
the `_size` counter. If the front fragment holds more than `n` bytes, `n`
bytes are trimmed from it and `_size` drops by `n`; otherwise the front
fragment is popped (`pop_front` subtracts the whole fragment size from
`_size`) and the loop continues with `n` unchanged, exactly as in the
source. -/
def trimFrontAux : List (List UInt8) → Nat → Nat → List (List UInt8) × Nat
  | [], size, _ => ([], size)
  | f :: fs, size, n =>
    if f.length > n then ((f.drop n) :: fs, size - n)
    else trimFrontAux fs (size - f.length) n

/-- `iobuf::trim_front(n)`. -/
def Iobuf.trim_front (b : Iobuf) (n : Nat) : Iobuf :=
  let p := trimFrontAux b.frags b.size n
  ⟨p.1, p.2⟩

theorem bytesEqLoop_iff (l : List UInt8) :
    ∀ r : List UInt8, l.length = r.length → (bytesEqLoop l r = true ↔ l = r) := by
  induction l with
  | nil =>
    intro r h
    cases r with
    | nil => simp [bytesEqLoop]
    | cons x xs => simp at h
  | cons x xs ih =>
    intro r h
    cases r with
    | nil => simp at h
    | cons y ys =>
      simp only [List.length_cons, Nat.succ.injEq] at h
      simp only [bytesEqLoop, Bool.and_eq_true, beq_iff_eq, List.cons.injEq]
      rw [ih ys h]

theorem bytesEqLoop_refl (l : List UInt8) : bytesEqLoop l l = true :=
  (bytesEqLoop_iff l l rfl).mpr rfl

/-- C8: for every pair of fragmented buffers `a` and `b`, `a == b` holds if
and only if the byte sequences they hold are equal, independent of how each
buffer is split into fragments (the statement mentions only `Iobuf.bytes`,
never the fragmentation), and `a != b` is the negation of `a == b`. -/
theorem iobuf_eq_iff_bytes_eq (a b : Iobuf) (ha : a.wf) (hb : b.wf) :
    (Iobuf.beq a b = true ↔ a.bytes = b.bytes) ∧
      Iobuf.bne a b = !(Iobuf.beq a b) := by
  refine ⟨?_, rfl⟩
  unfold Iobuf.beq
  constructor
  · intro h
    rcases Bool.and_eq_true _ _ |>.mp h with ⟨h1, h2⟩
    have hsz : a.size = b.size := beq_iff_eq.mp h1
    have hlen : a.bytes.length = b.bytes.length := by
      rw [← ha, ← hb, hsz]
    exact (bytesEqLoop_iff a.bytes b.bytes hlen).mp h2
  · intro h
    have hlen : a.bytes.length = b.bytes.length := by rw [h]
    have hsz : a.size = b.size := by rw [ha, hb, hlen]
    refine Bool.and_eq_true _ _ |>.mpr ⟨?_, ?_⟩
    · exact beq_iff_eq.mpr hsz
    · exact (bytesEqLoop_iff a.bytes b.bytes hlen).mpr h

/-- C8 witness: two concrete buffers holding the bytes `[1,2,3]` under
different fragmentations compare equal. -/
theorem iobuf_eq_iff_bytes_eq_witness :
    (Iobuf.mk [[1], [2, 3]] 3).wf ∧ (Iobuf.mk [[1, 2], [3]] 3).wf ∧
      (Iobuf.beq (Iobuf.mk [[1], [2, 3]] 3) (Iobuf.mk [[1, 2], [3]] 3) = true ↔
        (Iobuf.mk [[1], [2, 3]] 3).bytes = (Iobuf.mk [[1, 2], [3]] 3).bytes) :=
  ⟨by decide, by decide,
    (iobuf_eq_iff_bytes_eq (Iobuf.mk [[1], [2, 3]] 3) (Iobuf.mk [[1, 2], [3]] 3)
        (by decide) (by decide)).1⟩

/-- C9: `trim_front(n)` does not remove exactly the first `n` bytes. On the
buffer with fragments `[0,1]` and `[2,3,4]` (bytes `[0,1,2,3,4]`, size 5),
`trim_front 2` should leave `[2,3,4]`; instead the loop pops the first
fragment without decreasing `n` and then trims `n` further bytes from the
next fragment, leaving `[4]` and shrinking `size` by 4 rather than 2. -/
theorem trim_front_removes_more_than_n :
    (Iobuf.mk [[0, 1], [2, 3, 4]] 5).wf ∧
      2 ≤ (Iobuf.mk [[0, 1], [2, 3, 4]] 5).bytes.length ∧
      ((Iobuf.mk [[0, 1], [2, 3, 4]] 5).trim_front 2).bytes = [4] ∧
      ((Iobuf.mk [[0, 1], [2, 3, 4]] 5).trim_front 2).bytes ≠
        (Iobuf.mk [[0, 1], [2, 3, 4]] 5).bytes.drop 2 ∧
      ((Iobuf.mk [[0, 1], [2, 3, 4]] 5).trim_front 2).size ≠
        (Iobuf.mk [[0, 1], [2, 3, 4]] 5).size - 2 := by
  decide

/-! ## Segment set recovery: src/v/storage/log_manager.cc

`log_set` is the ordered (ascending base offset) list of segment readers of
one partition. A `log_segment_reader` carries its file name, base offset,
term, the recorded last-written offset (the target of
`set_last_written_offset`) and the file size reported by `stat`. The file
system is modelled as the list of existing file names. -/

structure Segment where
  name : String
  base : Nat
  term : Nat
  lastWritten : Nat
  fsize : Nat
  closed : Bool
deriving DecidableEq, Repr

/-- `log_segment_reader::set_last_written_offset`. -/
def set_last_written (s : Segment) (o : Nat) : Segment :=
  { s with lastWritten := o }

/-- `set_max_offsets` (log_manager.cc): for every segment that has a
successor in the set, record the successor's base offset as its
last-written offset. The final segment is left untouched. -/
def set_max_offsets : List Segment → List Segment
  | [] => []
  | [s] => [s]
  | s :: t :: rest => set_last_written s t.base :: set_max_offsets (t :: rest)

/-- Result of `do_recover`: the surviving segment set, the file system
contents, and the segment removed from the set (if any). -/
structure RecoverOut where
  segs : List Segment
  fs : List String
  removed : Option Segment
deriving DecidableEq, Repr

/-- `do_recover` (log_manager.cc). The replay of the last segment is not in
the provided sources; its outcome is the parameter `recovered`.

Modelled from the spec: `log_replayer::recover_in_thread` (not under the
provided sources) scans the last segment and, when it finds at least one
valid batch, yields `some v` where `v` is the last offset of the last valid
batch (`recovered.last_valid_offset()`); it yields `none` when no valid
batch is found.

On success the code stores `v + 1` ("Max offset is exclusive"). On failure
it pops the last segment and either deletes its file (size zero, after
closing the segment) or renames it to `<name>.cannotrecover`. -/
def do_recover (segs : List Segment) (recovered : Option Nat) (fs : List String) :
    RecoverOut :=
  match segs.getLast? with
  | none => ⟨segs, fs, none⟩
  | some last =>
    match recovered with
    | some v => ⟨segs.dropLast ++ [set_last_written last (v + 1)], fs, none⟩
    | none =>
      if last.fsize = 0 then
        ⟨segs.dropLast, fs.erase last.name, some { last with closed := true }⟩
      else
        ⟨segs.dropLast, (fs.erase last.name) ++ [last.name ++ (".cannotrecover")],
          some last⟩

/-- C3 counterexample: one segment whose recovery scan reports last valid
offset 5. The code records 6 (`last_valid + 1`, the exclusive max offset),
not 5 as the claim states. -/
theorem do_recover_stores_exclusive_offset :
    ((do_recover [Segment.mk ("0-0-v1.log") 0 0 0 100 false] (some 5)
        [("0-0-v1.log")]).segs.map Segment.lastWritten) = [6] ∧ (6 : Nat) ≠ 5 := by
  decide

/-- C3 (amended): when the recovery scan of the last segment finds at least
one valid batch with last offset `v`, `do_recover` keeps every earlier
segment unchanged, removes nothing, leaves the file system untouched, and
sets the last segment's recorded last-written offset to `v + 1` (the
recorded max offset is exclusive). -/
theorem do_recover_success (segs : List Segment) (v : Nat) (fs : List String)
    (h : segs ≠ []) :
    (do_recover segs (some v) fs).segs =
        segs.dropLast ++ [set_last_written (segs.getLast h) (v + 1)] ∧
      (do_recover segs (some v) fs).fs = fs ∧
      (do_recover segs (some v) fs).removed = none := by
  obtain ⟨l, a, rfl⟩ := (List.eq_nil_or_concat segs).resolve_left h
  simp [do_recover, List.getLast?_concat, List.dropLast_concat, List.getLast_concat,
    List.concat_eq_append]

/-- C3 witness. -/
theorem do_recover_success_witness :
    ([Segment.mk ("10-1-v1.log") 10 1 0 50 false] : List Segment) ≠ [] ∧
      (do_recover [Segment.mk ("10-1-v1.log") 10 1 0 50 false] (some 12)
          [("10-1-v1.log")]).segs =
        [Segment.mk ("10-1-v1.log") 10 1 13 50 false] :=
  ⟨by decide,
    by
      have h := do_recover_success [Segment.mk ("10-1-v1.log") 10 1 0 50 false] 12
        [("10-1-v1.log")] (by decide)
      simpa [set_last_written] using h.1⟩

/-- C4: when the recovery scan of the last segment finds no valid batch,
`do_recover` pops exactly the last segment, leaving the earlier segments
unchanged; if the segment file size is zero the segment is closed and its
file deleted, otherwise its file is renamed to its original name with
".cannotrecover" appended. -/
theorem do_recover_unrecoverable (segs : List Segment) (fs : List String)
    (h : segs ≠ []) :
    (do_recover segs none fs).segs = segs.dropLast ∧
      ((segs.getLast h).fsize = 0 →
        (do_recover segs none fs).removed =
            some { segs.getLast h with closed := true } ∧
          (do_recover segs none fs).fs = fs.erase (segs.getLast h).name) ∧
      ((segs.getLast h).fsize ≠ 0 →
        (do_recover segs none fs).removed = some (segs.getLast h) ∧
          (do_recover segs none fs).fs =
            (fs.erase (segs.getLast h).name) ++
              [(segs.getLast h).name ++ (".cannotrecover")]) := by
  obtain ⟨l, a, rfl⟩ := (List.eq_nil_or_concat segs).resolve_left h
  by_cases hz : a.fsize = 0
  · simp [do_recover, List.getLast?_concat, List.dropLast_concat, List.getLast_concat,
      List.concat_eq_append, hz]
  · simp [do_recover, List.getLast?_concat, List.dropLast_concat, List.getLast_concat,
      List.concat_eq_append, hz]

/-- C4 witness: a two-segment set whose last segment has a zero-size file;
recovery drops the last segment, closes it and deletes its file. -/
theorem do_recover_unrecoverable_witness :
    ([Segment.mk ("0-0-v1.log") 0 0 0 100 false,
        Segment.mk ("10-0-v1.log") 10 0 0 0 false] : List Segment) ≠ [] ∧
      (do_recover [Segment.mk ("0-0-v1.log") 0 0 0 100 false,
          Segment.mk ("10-0-v1.log") 10 0 0 0 false] none
          [("0-0-v1.log"), ("10-0-v1.log")]).segs =
        [Segment.mk ("0-0-v1.log") 0 0 0 100 false] ∧
      (do_recover [Segment.mk ("0-0-v1.log") 0 0 0 100 false,
          Segment.mk ("10-0-v1.log") 10 0 0 0 false] none
          [("0-0-v1.log"), ("10-0-v1.log")]).fs = [("0-0-v1.log")] :=
  by
    have h := do_recover_unrecoverable
      [Segment.mk ("0-0-v1.log") 0 0 0 100 false,
        Segment.mk ("10-0-v1.log") 10 0 0 0 false]
      [("0-0-v1.log"), ("10-0-v1.log")] (by decide)
    refine ⟨by decide, ?_, ?_⟩
    · simpa using h.1
    · have h2 := (h.2.1 (by decide)).2
      simpa using h2

/-- C7 counterexample: two segments with base offsets 0 and 10. After
`set_max_offsets`, the first segment's recorded committed/max offset equals
10, the base offset of its successor, so the claimed strict inequality
`S_i.committed_offset < S_{i+1}.base_offset` fails. -/
theorem set_max_offsets_equal_not_lt :
    ((set_max_offsets [Segment.mk ("0-0-v1.log") 0 0 0 100 false,
          Segment.mk ("10-0-v1.log") 10 0 0 50 false]).map Segment.lastWritten)
        = [10, 0] ∧
      ((set_max_offsets [Segment.mk ("0-0-v1.log") 0 0 0 100 false,
          Segment.mk ("10-0-v1.log") 10 0 0 50 false]).map Segment.base)
        = [0, 10] ∧
      ¬ ((10 : Nat) < 10) := by
  decide

/-- Consecutive-segment relation established by `set_max_offsets`: the
recorded last-written (max) offset of the first segment equals the base
offset of the second — it is an exclusive bound — hence the half-open
offset range of the first segment is disjoint from the second segment's
range. -/
def seg_disjoint (a b : Segment) : Prop :=
  a.lastWritten = b.base ∧
    ∀ o : Nat, a.base ≤ o → o < a.lastWritten → ¬ (b.base ≤ o ∧ o < b.lastWritten)

theorem set_max_offsets_head_base (t : Segment) (rest : List Segment) :
    ((set_max_offsets (t :: rest)).head?).map Segment.base = some t.base := by
  cases rest <;> rfl

/-- C7 (amended): after `set_max_offsets`, every consecutive pair of
segments satisfies `S_i.lastWritten = S_{i+1}.base` — an equality, not the
claimed strict inequality, because the recorded max offset is exclusive —
and consequently no offset lies in the ranges of two consecutive
segments. -/
theorem set_max_offsets_no_overlap :
    (segs : List Segment) → List.Chain' seg_disjoint (set_max_offsets segs)
  | [] => by simp [set_max_offsets]
  | [s] => by simp [set_max_offsets]
  | s :: t :: rest => by
    have ih := set_max_offsets_no_overlap (t :: rest)
    show List.Chain' seg_disjoint (set_last_written s t.base :: set_max_offsets (t :: rest))
    rw [List.chain'_cons']
    refine ⟨?_, ih⟩
    intro b hb
    have hb' : (set_max_offsets (t :: rest)).head? = some b := hb
    have hbase : b.base = t.base := by
      have h2 := set_max_offsets_head_base t rest
      rw [hb'] at h2
      exact Option.some.inj h2
    constructor
    · show (set_last_written s t.base).lastWritten = b.base
      rw [hbase]
      rfl
    · intro o _ ho hmem
      have hlt : o < t.base := ho
      rw [hbase] at hmem
      exact absurd hmem.1 (Nat.not_le_of_lt hlt)

/-- C7 witness: the amended relation holds on a concrete two-segment set. -/
theorem set_max_offsets_no_overlap_witness :
    List.Chain' seg_disjoint (set_max_offsets
      [Segment.mk ("0-0-v1.log") 0 0 0 100 false,
        Segment.mk ("10-0-v1.log") 10 0 0 50 false]) :=
  set_max_offsets_no_overlap
    [Segment.mk ("0-0-v1.log") 0 0 0 100 false,
      Segment.mk ("10-0-v1.log") 10 0 0 50 false]

/-! ## Log manager directory scan: src/v/storage/log_manager.cc

`extract_segment_metadata` matches a file name against the anchored
ECMAScript regex `^(\\d+)-(\\d+)-([\\x00-\\x7F]+).log$`. The dot before `log`
is unescaped, so it matches any character except a line terminator. The
greedy groups are deterministic here: each digit group must be followed by
a dash (and a shorter digit group would be followed by a digit), and the
third group is forced to end exactly four characters before the end of the
name. On a match, the digit groups go through
`boost::lexical_cast<uint64_t>` and `boost::lexical_cast<int64_t>`, which
throw `bad_lexical_cast` when the value exceeds the target integer range;
the exception propagates out of the walker lambda and aborts the whole
`manage` scan. File names are modelled as their character lists. -/

def isAsciiByte (c : Char) : Bool :=
  c.toNat ≤ 127

/-- The unescaped regex dot: any character except a line terminator. -/
def dot_matches (c : Char) : Bool :=
  (c != ('\n' : Char)) && (c != ('\r' : Char))

/-- The numeric value of a digit string. The range check of
`boost::lexical_cast` is applied on top of this by `lexical_cast_u64` and
`lexical_cast_i64`. -/
def digits_to_nat (cs : List Char) : Nat :=
  cs.foldl (fun acc c => acc * 10 + (c.toNat - ('0' : Char).toNat)) 0

def uint64_max : Nat := 18446744073709551615

def int64_max : Nat := 9223372036854775807

/-- `boost::lexical_cast<uint64_t>` of a digit string: `none` models the
`bad_lexical_cast` throw on a value beyond the `uint64_t` range. -/
def lexical_cast_u64 (cs : List Char) : Option Nat :=
  if digits_to_nat cs ≤ uint64_max then some (digits_to_nat cs) else none

/-- `boost::lexical_cast<int64_t>` of a digit string: `none` models the
`bad_lexical_cast` throw on a value beyond the `int64_t` range. -/
def lexical_cast_i64 (cs : List Char) : Option Nat :=
  if digits_to_nat cs ≤ int64_max then some (digits_to_nat cs) else none

/-- Outcome of `extract_segment_metadata`: the regex rejects the name (the
entry is skipped), or it matches and both integer casts succeed, or it
matches and a cast throws `bad_lexical_cast` (aborting the scan). -/
inductive ExtractResult
  | noMatch
  | castError
  | parsed (off : Nat) (term : Nat) (ver : List Char)
deriving DecidableEq, Repr

/-- `extract_segment_metadata` (log_manager.cc): matches the name against
`^(\\d+)-(\\d+)-([\\x00-\\x7F]+).log$` and, on a match, converts the digit
groups with the throwing `boost::lexical_cast` conversions. -/
def extract_segment_metadata (name : List Char) : ExtractResult :=
  let d1 := name.takeWhile Char.isDigit
  let r1 := name.dropWhile Char.isDigit
  if d1.isEmpty then ExtractResult.noMatch
  else
    match r1 with
    | '-' :: r2 =>
      let d2 := r2.takeWhile Char.isDigit
      let r3 := r2.dropWhile Char.isDigit
      if d2.isEmpty then ExtractResult.noMatch
      else
        match r3 with
        | '-' :: rest =>
          if decide (5 ≤ rest.length) &&
              (rest.take (rest.length - 4)).all isAsciiByte &&
              (match rest.get? (rest.length - 4) with
                | some c => dot_matches c
                | none => false) &&
              (rest.drop (rest.length - 3) == ['l', 'o', 'g'])
          then
            match lexical_cast_u64 d1, lexical_cast_i64 d2 with
            | some off, some term =>
              ExtractResult.parsed off term (rest.take (rest.length - 4))
            | _, _ => ExtractResult.castError
          else ExtractResult.noMatch
        | _ => ExtractResult.noMatch
    | _ => ExtractResult.noMatch

inductive RecordVersion
  | v1
  | unknown
deriving DecidableEq, Repr

/-- Modelled from the spec: `from_string` of storage/version.h is not under
the provided sources; section 6.2 names `v1` as the only on-disk format
version, so the string "v1" parses to `v1` and everything else to an
unrecognised version. -/
def from_string (s : List Char) : RecordVersion :=
  if s = ['v', '1'] then RecordVersion.v1 else RecordVersion.unknown

inductive EntryKind
  | regular
  | directory
  | other
deriving DecidableEq, Repr

/-- A `seastar::directory_entry`: name, optional type, and the file size the
scan would obtain from `stat`. -/
structure DirEntry where
  name : List Char
  kind : Option EntryKind
  fsize : Nat
deriving DecidableEq, Repr

/-- The segment reader `manage` constructs for an accepted entry. -/
def open_seg (e : DirEntry) : Segment :=
  match extract_segment_metadata e.name with
  | ExtractResult.parsed off term _ =>
    Segment.mk (String.mk e.name) off term 0 e.fsize false
  | _ => Segment.mk (String.mk e.name) 0 0 0 e.fsize false

/-- An entry passes the scan when it is a regular file, its name matches the
code's regex, both casts succeed, and the parsed version is `v1`. -/
def scan_accepts (e : DirEntry) : Bool :=
  e.kind == some EntryKind.regular &&
    match extract_segment_metadata e.name with
    | ExtractResult.parsed _ _ ver => from_string ver == RecordVersion.v1
    | _ => false

/-- An entry makes the scan throw `bad_lexical_cast`: a regular file whose
name the regex accepts but whose digit group overflows its integer cast. -/
def scan_throws (e : DirEntry) : Bool :=
  e.kind == some EntryKind.regular &&
    extract_segment_metadata e.name == ExtractResult.castError

instance {e a : Type} [DecidableEq e] [DecidableEq a] :
    DecidableEq (Except e a) := fun x y =>
  match x, y with
  | Except.ok v, Except.ok w =>
    if h : v = w then Decidable.isTrue (h ▸ rfl)
    else Decidable.isFalse (fun hc => h (by injection hc))
  | Except.error v, Except.error w =>
    if h : v = w then Decidable.isTrue (h ▸ rfl)
    else Decidable.isFalse (fun hc => h (by injection hc))
  | Except.ok _, Except.error _ => Decidable.isFalse (fun hc => by injection hc)
  | Except.error _, Except.ok _ => Decidable.isFalse (fun hc => by injection hc)

/-- The directory walk of `log_manager::manage`: entries that are not
regular files, whose names the regex rejects, or whose parsed version is
not `v1` are skipped (the walk continues); a `bad_lexical_cast` throw
propagates and aborts the walk; the rest are opened and pushed onto the
segment vector in walk order. -/
def manage_scan_go (segs : List Segment) : List DirEntry → Except String (List Segment)
  | [] => Except.ok segs
  | e :: rest =>
    if e.kind != some EntryKind.regular then manage_scan_go segs rest
    else
      match extract_segment_metadata e.name with
      | ExtractResult.noMatch => manage_scan_go segs rest
      | ExtractResult.castError => Except.error ("bad_lexical_cast")
      | ExtractResult.parsed off term ver =>
        if from_string ver != RecordVersion.v1 then manage_scan_go segs rest
        else
          manage_scan_go
            (segs ++ [Segment.mk (String.mk e.name) off term 0 e.fsize false]) rest

def manage_scan (entries : List DirEntry) : Except String (List Segment) :=
  manage_scan_go [] entries

/-- The file-name pattern exactly as the claim words it:
`<digits>-<digits>-<version>.log` with a literal dot, specialised to
version `v1`. -/
def claimed_v1_name (name : List Char) : Bool :=
  let d1 := name.takeWhile Char.isDigit
  let r1 := name.dropWhile Char.isDigit
  !d1.isEmpty &&
    match r1 with
    | '-' :: r2 =>
      let d2 := r2.takeWhile Char.isDigit
      let r3 := r2.dropWhile Char.isDigit
      !d2.isEmpty &&
        match r3 with
        | '-' :: rest => rest == ['v', '1', '.', 'l', 'o', 'g']
        | _ => false
    | _ => false

/-- C10 counterexample, two refutations of the original claim. The regular
file `0-0-v1xlog` does not match the claimed pattern
`<digits>-<digits>-<version>.log` (it has no dot), yet the scan opens it as
a segment, because the unescaped dot in the code's regex matches the `x`.
And the regular file `99999999999999999999-0-v1.log` does match the claimed
pattern with version v1 (20 digits, a legal `\\d+`), yet instead of the
claimed open-and-continue behaviour the scan aborts:
`boost::lexical_cast<uint64_t>` throws on the out-of-range base offset. -/
theorem manage_scan_opens_nondot_name :
    claimed_v1_name ['0', '-', '0', '-', 'v', '1', 'x', 'l', 'o', 'g'] = false ∧
      manage_scan
          [DirEntry.mk ['0', '-', '0', '-', 'v', '1', 'x', 'l', 'o', 'g']
            (some EntryKind.regular) 64] =
        Except.ok [Segment.mk ("0-0-v1xlog") 0 0 0 64 false] ∧
      claimed_v1_name (("99999999999999999999-0-v1.log").toList) = true ∧
      manage_scan
          [DirEntry.mk (("99999999999999999999-0-v1.log").toList)
            (some EntryKind.regular) 64] =
        Except.error ("bad_lexical_cast") := by
  decide

theorem manage_scan_go_eq (entries : List DirEntry) :
    ∀ segs : List Segment,
      ((entries.all fun e => !(scan_throws e)) = true →
        manage_scan_go segs entries =
          Except.ok (segs ++ (entries.filter scan_accepts).map open_seg)) ∧
      ((entries.any fun e => scan_throws e) = true →
        manage_scan_go segs entries = Except.error ("bad_lexical_cast")) := by
  induction entries with
  | nil =>
    intro segs
    constructor
    · intro _
      simp [manage_scan_go]
    · intro h
      simp at h
  | cons e rest ih =>
    intro segs
    by_cases hk : e.kind = some EntryKind.regular
    · cases hx : extract_segment_metadata e.name with
      | noMatch =>
        have hacc : scan_accepts e = false := by
          simp [scan_accepts, hx]
        have hthr : scan_throws e = false := by
          simp [scan_throws, hx]
        have hred : manage_scan_go segs (e :: rest) = manage_scan_go segs rest := by
          simp [manage_scan_go, hk, hx]
        constructor
        · intro hall
          rw [List.all_cons] at hall
          have hall2 := (Bool.and_eq_true _ _ |>.mp hall).2
          rw [hred, (ih segs).1 hall2,
            List.filter_cons_of_neg (by simp [hacc])]
        · intro hany
          rw [List.any_cons] at hany
          rcases Bool.or_eq_true _ _ |>.mp hany with h | h
          · rw [hthr] at h
            exact absurd h (by simp)
          · rw [hred]
            exact (ih segs).2 h
      | castError =>
        have hthr : scan_throws e = true := by
          simp [scan_throws, hx, hk]
        have hred : manage_scan_go segs (e :: rest)
            = Except.error ("bad_lexical_cast") := by
          simp [manage_scan_go, hk, hx]
        constructor
        · intro hall
          rw [List.all_cons] at hall
          have hall1 := (Bool.and_eq_true _ _ |>.mp hall).1
          rw [hthr] at hall1
          exact absurd hall1 (by simp)
        · intro _
          exact hred
      | parsed off term ver =>
        have hthr : scan_throws e = false := by
          simp [scan_throws, hx]
        by_cases hv : from_string ver = RecordVersion.v1
        · have hacc : scan_accepts e = true := by
            simp [scan_accepts, hx, hk, hv]
          have hred : manage_scan_go segs (e :: rest) = manage_scan_go
              (segs ++ [Segment.mk (String.mk e.name) off term 0 e.fsize false])
              rest := by
            simp [manage_scan_go, hk, hx, hv]
          constructor
          · intro hall
            rw [List.all_cons] at hall
            have hall2 := (Bool.and_eq_true _ _ |>.mp hall).2
            rw [hred, (ih _).1 hall2,
              List.filter_cons_of_pos (by simp [hacc])]
            simp [open_seg, hx, List.append_assoc]
          · intro hany
            rw [List.any_cons] at hany
            rcases Bool.or_eq_true _ _ |>.mp hany with h | h
            · rw [hthr] at h
              exact absurd h (by simp)
            · rw [hred]
              exact (ih _).2 h
        · have hacc : scan_accepts e = false := by
            simp [scan_accepts, hx, hv]
          have hred : manage_scan_go segs (e :: rest) = manage_scan_go segs rest := by
            simp [manage_scan_go, hk, hx, hv]
          constructor
          · intro hall
            rw [List.all_cons] at hall
            have hall2 := (Bool.and_eq_true _ _ |>.mp hall).2
            rw [hred, (ih segs).1 hall2,
              List.filter_cons_of_neg (by simp [hacc])]
          · intro hany
            rw [List.any_cons] at hany
            rcases Bool.or_eq_true _ _ |>.mp hany with h | h
            · rw [hthr] at h
              exact absurd h (by simp)
            · rw [hred]
              exact (ih segs).2 h
    · have hacc : scan_accepts e = false := by
        simp [scan_accepts, hk]
      have hthr : scan_throws e = false := by
        simp [scan_throws, hk]
      have hred : manage_scan_go segs (e :: rest) = manage_scan_go segs rest := by
        have hbne : (e.kind != some EntryKind.regular) = true := by
          simp [bne, hk]
        simp [manage_scan_go, hbne]
      constructor
      · intro hall
        rw [List.all_cons] at hall
        have hall2 := (Bool.and_eq_true _ _ |>.mp hall).2
        rw [hred, (ih segs).1 hall2,
          List.filter_cons_of_neg (by simp [hacc])]
      · intro hany
        rw [List.any_cons] at hany
        rcases Bool.or_eq_true _ _ |>.mp hany with h | h
        · rw [hthr] at h
          exact absurd h (by simp)
        · rw [hred]
          exact (ih segs).2 h

/-- C10 (amended): when no regular entry's regex-matched name overflows the
integer casts, the scan of `manage` opens exactly the directory entries
that are regular files, whose names match the code's regex
`^(\\d+)-(\\d+)-([\\x00-\\x7F]+).log$` — whose unescaped dot also accepts
names such as `0-0-v1xlog` — and whose parsed version is `v1`; every other
entry is skipped without aborting the walk and the opened segments appear
in walk order. When some regular entry matches the regex but its base
offset exceeds the `uint64_t` range or its term exceeds the `int64_t`
range, `boost::lexical_cast` throws and the whole scan aborts instead. -/
theorem manage_scan_exactly_accepted (entries : List DirEntry) :
    ((entries.all fun e => !(scan_throws e)) = true →
      manage_scan entries =
        Except.ok ((entries.filter scan_accepts).map open_seg)) ∧
    ((entries.any fun e => scan_throws e) = true →
      manage_scan entries = Except.error ("bad_lexical_cast")) := by
  obtain ⟨h1, h2⟩ := manage_scan_go_eq entries []
  constructor
  · intro h
    rw [manage_scan, h1 h, List.nil_append]
  · intro h
    rw [manage_scan]
    exact h2 h

/-- C10 witness: a directory with a well-formed segment file and a foreign
file; no entry overflows the casts, the scan succeeds and opens exactly the
accepted entry. -/
theorem manage_scan_exactly_accepted_witness :
    (([DirEntry.mk (("0-0-v1.log").toList) (some EntryKind.regular) 10,
          DirEntry.mk (("foo.txt").toList) (some EntryKind.regular) 5]).all
        fun e => !(scan_throws e)) = true ∧
      manage_scan
          [DirEntry.mk (("0-0-v1.log").toList) (some EntryKind.regular) 10,
            DirEntry.mk (("foo.txt").toList) (some EntryKind.regular) 5] =
        Except.ok
          (([DirEntry.mk (("0-0-v1.log").toList) (some EntryKind.regular) 10,
              DirEntry.mk (("foo.txt").toList) (some EntryKind.regular) 5].filter
            scan_accepts).map open_seg) :=
  ⟨by decide,
    (manage_scan_exactly_accepted
        [DirEntry.mk (("0-0-v1.log").toList) (some EntryKind.regular) 10,
          DirEntry.mk (("foo.txt").toList) (some EntryKind.regular) 5]).1
      (by decide)⟩

/-! ## Log reader: src/v/storage/log_reader.cc

The `skipping_consumer`/`log_segment_reader` pair is modelled at batch
granularity: the parser hands fully decoded batches, one per
`consume_batch_end` call, to the consumer. The wall clock is external, so
each input batch is paired with the boolean value of
`now() >= _timeout` at its `consume_batch_end` call. -/

structure RBatch where
  base : Nat
  last : Nat
  mem : Nat
deriving DecidableEq, Repr

/-- Reader configuration and the `offset_tracker` committed offset; the
static `max_buffer_size` bound is a parameter. -/
structure ReaderCfg where
  maxBytes : Nat
  committed : Nat
  maxBufferSize : Nat
deriving DecidableEq, Repr

structure ReaderState where
  buffer : List RBatch
  bufferSize : Nat
  bytesRead : Nat
  endOfStream : Bool
  overCommitted : Bool
deriving DecidableEq, Repr

/-- `skipping_consumer::consume_batch_end`: the batch is first emplaced into
the buffer and the byte counters advance; then, if its base offset exceeds
the tracker's committed offset, the stream ends with `_over_committed_offset`
set; otherwise the byte budget and deadline are checked; otherwise iteration
stops only when the buffer is full. Returns the new state and the
`stop_iteration` flag. -/
def consume_batch_end (cfg : ReaderCfg) (s : ReaderState) (b : RBatch)
    (timedOut : Bool) : ReaderState × Bool :=
  let s1 : ReaderState :=
    { s with
      buffer := s.buffer ++ [b]
      bytesRead := s.bytesRead + b.mem
      bufferSize := s.bufferSize + b.mem }
  if cfg.committed < b.base then
    ({ s1 with endOfStream := true, overCommitted := true }, true)
  else if cfg.maxBytes ≤ s1.bytesRead || timedOut then
    ({ s1 with endOfStream := true }, true)
  else
    (s1, decide (cfg.maxBufferSize ≤ s1.bufferSize))

/-- `continuous_batch_parser::consume`: feeds batches to the consumer until
it requests a stop or the input is exhausted. Returns the final state and
the unconsumed input (empty exactly when the stream hit end of file). -/
def consume_loop (cfg : ReaderCfg) :
    ReaderState → List (RBatch × Bool) → ReaderState × List (RBatch × Bool)
  | s, [] => (s, [])
  | s, (b, t) :: rest =>
    let p := consume_batch_end cfg s b t
    if p.2 then (p.1, rest) else consume_loop cfg p.1 rest

/-- The tail of `do_load_slice` after the parser returns: if the input
stream hit end of file, or the consumer already ended the stream, mark
`_end_of_stream`. -/
def after_consume (p : ReaderState × List (RBatch × Bool)) : ReaderState :=
  if p.2.isEmpty || p.1.endOfStream then { p.1 with endOfStream := true } else p.1

/-- The span handed to the caller:
`{&_buffer[0], int32_t(_buffer.size()) - _over_committed_offset}` — the
whole buffer, minus the final batch when that batch overran the committed
offset. -/
def span_of (s1 : ReaderState) : List RBatch :=
  if s1.buffer.isEmpty then []
  else s1.buffer.take (s1.buffer.length - (if s1.overCommitted then 1 else 0))

/-- `log_segment_reader::do_load_slice`: returns immediately when the stream
already ended or ran past the committed offset; otherwise clears the
buffer, runs the parser and returns the span. -/
def do_load_slice (cfg : ReaderCfg) (s : ReaderState) (input : List (RBatch × Bool)) :
    List RBatch × ReaderState :=
  if s.endOfStream || s.overCommitted then ([], s)
  else
    let s1 := after_consume
      (consume_loop cfg { s with bufferSize := 0, buffer := [] } input)
    (span_of s1, s1)

theorem after_consume_buffer (p : ReaderState × List (RBatch × Bool)) :
    (after_consume p).buffer = p.1.buffer := by
  unfold after_consume
  split <;> rfl

theorem after_consume_over (p : ReaderState × List (RBatch × Bool)) :
    (after_consume p).overCommitted = p.1.overCommitted := by
  unfold after_consume
  split <;> rfl

theorem after_consume_end (p : ReaderState × List (RBatch × Bool))
    (h : p.1.endOfStream = true) : (after_consume p).endOfStream = true := by
  unfold after_consume
  split
  · rfl
  · exact h

theorem span_of_subset (s1 : ReaderState) : ∀ b ∈ span_of s1, b ∈ s1.buffer := by
  intro b hb
  unfold span_of at hb
  split at hb
  · exact absurd hb (List.not_mem_nil b)
  · exact List.take_subset _ _ hb

theorem consume_loop_inv (cfg : ReaderCfg) (input : List (RBatch × Bool)) :
    ∀ s : ReaderState, s.overCommitted = false →
      (∀ b ∈ s.buffer, b.base ≤ cfg.committed) →
      ((consume_loop cfg s input).1.overCommitted = false →
          ∀ b ∈ (consume_loop cfg s input).1.buffer, b.base ≤ cfg.committed) ∧
        ((consume_loop cfg s input).1.overCommitted = true →
          (consume_loop cfg s input).1.endOfStream = true ∧
            ∃ g bd, (consume_loop cfg s input).1.buffer = g ++ [bd] ∧
              ∀ b ∈ g, b.base ≤ cfg.committed) := by
  induction input with
  | nil =>
    intro s hov hgood
    constructor
    · intro _; simpa [consume_loop] using hgood
    · intro hcontra
      rw [consume_loop] at hcontra
      rw [hov] at hcontra
      exact absurd hcontra (by simp)
  | cons bt rest ih =>
    intro s hov hgood
    obtain ⟨b, t⟩ := bt
    by_cases hb : cfg.committed < b.base
    · have hred : consume_loop cfg s ((b, t) :: rest) =
          ({ s with
              buffer := s.buffer ++ [b]
              bytesRead := s.bytesRead + b.mem
              bufferSize := s.bufferSize + b.mem
              endOfStream := true, overCommitted := true }, rest) := by
        simp [consume_loop, consume_batch_end, hb]
      rw [hred]
      constructor
      · intro hcontra; exact absurd hcontra (by simp)
      · intro _
        exact ⟨rfl, s.buffer, b, rfl, hgood⟩
    · have hble : b.base ≤ cfg.committed := Nat.le_of_not_lt hb
      have hgood1 : ∀ x ∈ s.buffer ++ [b], x.base ≤ cfg.committed := by
        intro x hx
        rcases List.mem_append.mp hx with hx | hx
        · exact hgood x hx
        · rw [List.mem_singleton.mp hx]; exact hble
      by_cases hstop : cfg.maxBytes ≤ s.bytesRead + b.mem ∨ t = true
      · have hred : consume_loop cfg s ((b, t) :: rest) =
            ({ s with
                buffer := s.buffer ++ [b]
                bytesRead := s.bytesRead + b.mem
                bufferSize := s.bufferSize + b.mem
                endOfStream := true }, rest) := by
          rcases hstop with h | h
          · simp [consume_loop, consume_batch_end, hb, h]
          · simp [consume_loop, consume_batch_end, hb, h]
        rw [hred]
        constructor
        · intro _
          simpa using hgood1
        · intro hcontra
          exact absurd hcontra (by simp [hov])
      · push_neg at hstop
        have hnb : ¬ (cfg.maxBytes ≤ s.bytesRead + b.mem) := Nat.not_le_of_lt hstop.1
        have hnt : t = false := by
          cases t
          · rfl
          · exact absurd rfl hstop.2
        by_cases hfull : cfg.maxBufferSize ≤ s.bufferSize + b.mem
        · have hred : consume_loop cfg s ((b, t) :: rest) =
              ({ s with
                  buffer := s.buffer ++ [b]
                  bytesRead := s.bytesRead + b.mem
                  bufferSize := s.bufferSize + b.mem }, rest) := by
            simp [consume_loop, consume_batch_end, hb, hnb, hnt, hfull]
          rw [hred]
          constructor
          · intro _
            simpa using hgood1
          · intro hcontra
            exact absurd hcontra (by simp [hov])
        · have hred : consume_loop cfg s ((b, t) :: rest) =
              consume_loop cfg
                { s with
                  buffer := s.buffer ++ [b]
                  bytesRead := s.bytesRead + b.mem
                  bufferSize := s.bufferSize + b.mem } rest := by
            simp [consume_loop, consume_batch_end, hb, hnb, hnt, hfull]
          rw [hred]
          exact ih _ (by simp [hov]) (by simpa using hgood1)

/-- C5: every batch in the slice returned by `do_load_slice` has a base
offset at most the tracker's committed offset; and when this load sets
`_over_committed_offset` (the parser decoded a batch past the committed
offset), the stream is marked ended — the offending batch stays in the
buffer but is excluded from the returned span. -/
theorem do_load_slice_le_committed (cfg : ReaderCfg) (s : ReaderState)
    (input : List (RBatch × Bool)) :
    (∀ b ∈ (do_load_slice cfg s input).1, b.base ≤ cfg.committed) ∧
      (s.overCommitted = false →
        (do_load_slice cfg s input).2.overCommitted = true →
        (do_load_slice cfg s input).2.endOfStream = true) := by
  by_cases hflag : (s.endOfStream || s.overCommitted) = true
  · rw [do_load_slice, if_pos hflag]
    constructor
    · intro b hb
      exact absurd hb (List.not_mem_nil b)
    · intro hov hcontra
      rw [hov] at hcontra
      exact absurd hcontra (by simp)
  · rw [do_load_slice, if_neg hflag]
    have hov : s.overCommitted = false := by
      revert hflag
      cases s.overCommitted <;> simp
    have hinv := consume_loop_inv cfg input
      { s with bufferSize := 0, buffer := [] } (by simpa using hov) (by simp)
    set q := consume_loop cfg { s with bufferSize := 0, buffer := [] } input with hq
    show (∀ b ∈ span_of (after_consume q), b.base ≤ cfg.committed) ∧
      (s.overCommitted = false → (after_consume q).overCommitted = true →
        (after_consume q).endOfStream = true)
    constructor
    · intro b hb
      have hb1 : b ∈ (after_consume q).buffer := span_of_subset _ b hb
      rw [after_consume_buffer] at hb1
      by_cases hov1 : q.1.overCommitted = true
      · obtain ⟨g, bd, hbuf, hgood⟩ := (hinv.2 hov1).2
        have hspan : span_of (after_consume q) = g := by
          unfold span_of
          rw [after_consume_buffer, after_consume_over, hbuf]
          rw [if_neg (by simp)]
          have hlen : (g ++ [bd]).length - (if q.1.overCommitted then 1 else 0)
              = g.length := by
            rw [if_pos hov1]
            simp
          rw [hlen, List.take_left]
        rw [hspan] at hb
        exact hgood b hb
      · have hgoodall := hinv.1 (Bool.eq_false_iff.mpr hov1)
        exact hgoodall b hb1
    · intro _ hover
      rw [after_consume_over] at hover
      exact after_consume_end q (hinv.2 hover).1

/-- C5 witness: a concrete load in which the second batch overruns the
committed offset; the returned slice contains only batches at or below it.
The theorem is applied at this input and evaluated on its first slice
element. -/
theorem do_load_slice_le_committed_witness :
    (RBatch.mk 0 4 10) ∈ (do_load_slice (ReaderCfg.mk 1000 5 100000)
        (ReaderState.mk [] 0 0 false false)
        [(RBatch.mk 0 4 10, false), (RBatch.mk 6 9 10, false)]).1 ∧
      (RBatch.mk 0 4 10).base ≤ (ReaderCfg.mk 1000 5 100000).committed :=
  ⟨by decide,
    (do_load_slice_le_committed (ReaderCfg.mk 1000 5 100000)
        (ReaderState.mk [] 0 0 false false)
        [(RBatch.mk 0 4 10, false), (RBatch.mk 6 9 10, false)]).1
      (RBatch.mk 0 4 10) (by decide)⟩

/-! ## WAL writer term handling: src/v/filesystem/wal_writer_node.cc

The writer's observable state: current term, byte epoch (offset of the open
segment file), bytes written to the open segment, and the (epoch, term)
pair naming the open segment file (`wal_file_name(dir, epoch, term)`). -/

structure WalWriterNode where
  term : Int
  epoch : Nat
  currentSize : Nat
  fileEpoch : Nat
  fileTerm : Int
deriving DecidableEq, Repr

/-- `wal_writer_node::rotate_fstream`: flush and close the current segment,
advance the epoch by the bytes written, reset the byte counter, and open a
fresh segment named by the new epoch and the current term. -/
def rotate_fstream (w : WalWriterNode) : WalWriterNode :=
  WalWriterNode.mk w.term (w.epoch + w.currentSize) 0 (w.epoch + w.currentSize) w.term

/-- `wal_writer_node::set_term(term)`: `LOG_THROW_IF(term >= opts_.term, ...)`
throws — modelled as `Except.error` — whenever the requested term is greater
than or equal to the current one; otherwise the current term is replaced and
the file stream rotated. -/
def set_term (w : WalWriterNode) (term : Int) : Except String WalWriterNode :=
  if w.term ≤ term then Except.error ("Invalid log term. Logic error.")
  else Except.ok (rotate_fstream { w with term := term })

/-- C6: `set_term` with a term higher than the current one — the case the
claim (and the spec's monotonic-term requirement) says must succeed and
roll the segment — throws an InvalidArgument-style error, while a lower
term — which the claim says must fail — is accepted and rotates to a
segment of the lower term: the guard `term >= opts_.term` is inverted. -/
theorem set_term_rejects_higher_term :
    (set_term (WalWriterNode.mk 1 0 0 0 1) 2).toOption = none ∧
      (set_term (WalWriterNode.mk 1 0 0 0 1) 1).toOption = none ∧
      (set_term (WalWriterNode.mk 1 0 0 0 1) 0).toOption =
        some (WalWriterNode.mk 0 0 0 0 0) := by
  decide

/-! ## Spec-modelled log: append and truncate

The storage `log` implementation (storage/log.h, disk_log_impl) is not
among the provided sources — only its tests and the log manager are — so
the offset-assignment and truncation behaviour is modelled from the spec.

Modelled from the spec, section 4.8: `append` assigns
`base_offset = dirty_offset + 1` to the first batch and `prev.last_offset + 1`
to each subsequent batch, returns `{base_offset, last_offset}` and advances
the dirty offset; `truncate(at_offset)` discards every batch with
`base_offset ≥ at_offset`. A fresh or fully truncated log has the
invalid-offset sentinel, modelled as `none`, so the first assigned offset
is 0. Batches are modelled by their inclusive offset ranges. -/

structure LBatch where
  base : Nat
  last : Nat
deriving DecidableEq, Repr

structure SpecLog where
  batches : List LBatch
  dirty : Option Nat
  committed : Option Nat
deriving DecidableEq, Repr

/-- The offset the next append assigns first: `dirty_offset + 1`, with the
sentinel mapping to offset 0. -/
def next_offset (l : SpecLog) : Nat :=
  match l.dirty with
  | none => 0
  | some d => d + 1

/-- Offset assignment within one append: batch `i` with `c_i` records gets
base `prev.last + 1` and last `base + c_i - 1`. -/
def assign_batches (base : Nat) : List Nat → List LBatch
  | [] => []
  | c :: cs => LBatch.mk base (base + c - 1) :: assign_batches (base + c) cs

structure AppendRes where
  base : Nat
  last : Nat
deriving DecidableEq, Repr

/-- Modelled from the spec (section 4.8 `append`): assigns contiguous
offsets to the incoming batches starting at `dirty + 1`, appends them to
the log, sets `dirty` to the last assigned offset and returns
`{base_offset, last_offset}`. An append of no batches leaves the log
unchanged. -/
def spec_append (l : SpecLog) (counts : List Nat) : AppendRes × SpecLog :=
  let b0 := next_offset l
  let bs := assign_batches b0 counts
  match bs.getLast? with
  | none => (AppendRes.mk b0 b0, l)
  | some bl =>
    (AppendRes.mk b0 bl.last,
      SpecLog.mk (l.batches ++ bs) (some bl.last) l.committed)

/-- Modelled from the spec (section 4.8 `truncate`): discards every batch
with `base_offset ≥ at_offset`; the dirty and committed offsets become the
last offset of the surviving batches, or the invalid-offset sentinel when
none survive. -/
def spec_truncate (l : SpecLog) (a : Nat) : SpecLog :=
  let kept := l.batches.filter (fun b => decide (b.base < a))
  let lastO := (kept.getLast?).map LBatch.last
  SpecLog.mk kept lastO lastO

/-- Contiguity of a batch list starting at offset `n`: each batch starts
where the previous one ended plus one and spans at least one offset. -/
def log_chainB : Nat → List LBatch → Bool
  | _, [] => true
  | n, b :: bs => (b.base == n) && (b.base ≤ b.last) && log_chainB (b.last + 1) bs

/-- A well-formed log: contiguous batches from offset 0 and a dirty offset
recording the last batch's last offset (sentinel when empty). -/
def SpecLog.wfB (l : SpecLog) : Bool :=
  log_chainB 0 l.batches && (l.dirty == (l.batches.getLast?).map LBatch.last)

theorem assign_batches_getLast (b0 : Nat) (counts : List Nat) (h : counts ≠ []) :
    ∃ bl : LBatch, (assign_batches b0 counts).getLast? = some bl := by
  induction counts generalizing b0 with
  | nil => exact absurd rfl h
  | cons c cs ih =>
    cases cs with
    | nil => exact ⟨LBatch.mk b0 (b0 + c - 1), rfl⟩
    | cons c2 cs2 =>
      obtain ⟨bl, hbl⟩ := ih (b0 + c) (by simp)
      refine ⟨bl, ?_⟩
      rw [assign_batches, assign_batches, List.getLast?_cons_cons]
      rw [assign_batches] at hbl
      exact hbl

/-- C1: two successive appends to one log (the second submitted after the
first completed) receive contiguous offsets: the second append's base
offset is the first append's last offset plus one (hence strictly
greater), and each append's returned last offset equals the log's dirty
(maximum) offset — and the last batch's last offset — immediately after
that append. -/
theorem append_offsets_contiguous (l : SpecLog) (ca cb : List Nat)
    (ha : ca ≠ []) (hb : cb ≠ []) :
    (spec_append (spec_append l ca).2 cb).1.base = (spec_append l ca).1.last + 1 ∧
      (spec_append l ca).1.last < (spec_append (spec_append l ca).2 cb).1.base ∧
      (spec_append l ca).2.dirty = some (spec_append l ca).1.last ∧
      ((spec_append l ca).2.batches.getLast?).map LBatch.last =
        some (spec_append l ca).1.last ∧
      (spec_append (spec_append l ca).2 cb).2.dirty =
        some (spec_append (spec_append l ca).2 cb).1.last := by
  obtain ⟨bla, hbla⟩ := assign_batches_getLast (next_offset l) ca ha
  have h1 : spec_append l ca =
      (AppendRes.mk (next_offset l) bla.last,
        SpecLog.mk (l.batches ++ assign_batches (next_offset l) ca)
          (some bla.last) l.committed) := by
    rw [spec_append]
    rw [hbla]
  obtain ⟨blb, hblb⟩ := assign_batches_getLast (bla.last + 1) cb hb
  have hne : assign_batches (next_offset l) ca ≠ [] := by
    intro hcontra
    rw [hcontra] at hbla
    exact absurd hbla (by simp)
  have h2 : spec_append (spec_append l ca).2 cb =
      (AppendRes.mk (bla.last + 1) blb.last,
        SpecLog.mk ((spec_append l ca).2.batches ++ assign_batches (bla.last + 1) cb)
          (some blb.last) (spec_append l ca).2.committed) := by
    rw [h1]
    rw [spec_append]
    show (match (assign_batches (bla.last + 1) cb).getLast? with
      | none => _ | some bl => _) = _
    rw [hblb]
    rfl
  refine ⟨?_, ?_, ?_, ?_, ?_⟩
  · rw [h2, h1]
  · rw [h2, h1]
    exact Nat.lt_succ_self _
  · rw [h1]
  · rw [h1]
    show Option.map LBatch.last
      ((l.batches ++ assign_batches (next_offset l) ca).getLast?) = some bla.last
    rw [List.getLast?_append_of_ne_nil _ hne, hbla]
    rfl
  · rw [h2]

/-- C1 witness: an empty log, an append of one 2-record batch followed by an
append of one 3-record batch: offsets 0..1 then 2..4. -/
theorem append_offsets_contiguous_witness :
    ([2] : List Nat) ≠ [] ∧ ([3] : List Nat) ≠ [] ∧
      ((spec_append (spec_append (SpecLog.mk [] none none) [2]).2 [3]).1.base =
          (spec_append (SpecLog.mk [] none none) [2]).1.last + 1 ∧
        (spec_append (SpecLog.mk [] none none) [2]).1.last <
          (spec_append (spec_append (SpecLog.mk [] none none) [2]).2 [3]).1.base ∧
        (spec_append (SpecLog.mk [] none none) [2]).2.dirty =
          some (spec_append (SpecLog.mk [] none none) [2]).1.last ∧
        ((spec_append (SpecLog.mk [] none none) [2]).2.batches.getLast?).map
            LBatch.last = some (spec_append (SpecLog.mk [] none none) [2]).1.last ∧
        (spec_append (spec_append (SpecLog.mk [] none none) [2]).2 [3]).2.dirty =
          some (spec_append (spec_append (SpecLog.mk [] none none) [2]).2 [3]).1.last) :=
  ⟨by decide, by decide,
    append_offsets_contiguous (SpecLog.mk [] none none) [2] [3]
      (by decide) (by decide)⟩

/-- C2 counterexample: a well-formed log holding the single batch with
offsets 0..1 (dirty offset 1). Truncating at offset 1 — inside the batch —
keeps the whole batch (its base offset 0 is below 1), so the dirty offset
stays 1 instead of the claimed `at - 1 = 0`, and the subsequent read
returns a batch whose last offset is not below the truncation point. -/
theorem truncate_midbatch_counterexample :
    (SpecLog.mk [LBatch.mk 0 1] (some 1) (some 1)).wfB = true ∧
      (1 : Nat) ≤ 1 ∧ (0 : Nat) < 1 ∧
      (spec_truncate (SpecLog.mk [LBatch.mk 0 1] (some 1) (some 1)) 1).dirty =
        some 1 ∧
      (some 1 : Option Nat) ≠ some (1 - 1) ∧
      (spec_truncate (SpecLog.mk [LBatch.mk 0 1] (some 1) (some 1)) 1).batches =
        [LBatch.mk 0 1] ∧
      ¬ ((LBatch.mk 0 1).last < 1) := by
  decide

theorem log_chainB_lb (bs : List LBatch) : ∀ n, log_chainB n bs = true →
    ∀ x ∈ bs, n ≤ x.base ∧ x.base ≤ x.last := by
  induction bs with
  | nil =>
    intro n _ x hx
    exact absurd hx (List.not_mem_nil x)
  | cons b rest ih =>
    intro n h x hx
    rw [log_chainB] at h
    rcases Bool.and_eq_true _ _ |>.mp h with ⟨h12, hch⟩
    rcases Bool.and_eq_true _ _ |>.mp h12 with ⟨hbase, hle⟩
    have hbase' : b.base = n := beq_iff_eq.mp hbase
    have hle' : b.base ≤ b.last := of_decide_eq_true hle
    rcases List.mem_cons.mp hx with hx | hx
    · rw [hx, hbase']
      exact ⟨Nat.le_refl n, hbase' ▸ hle'⟩
    · obtain ⟨h1, h2⟩ := ih (b.last + 1) hch x hx
      refine ⟨?_, h2⟩
      calc n = b.base := hbase'.symm
        _ ≤ b.last := hle'
        _ ≤ b.last + 1 := Nat.le_succ _
        _ ≤ x.base := h1

theorem getLast?_cons_is_some {α : Type} (y : α) (ys : List α) :
    ∃ z, (y :: ys).getLast? = some z := by
  induction ys generalizing y with
  | nil => exact ⟨y, rfl⟩
  | cons w ws ih =>
    obtain ⟨z, hz⟩ := ih w
    refine ⟨z, ?_⟩
    rw [List.getLast?_cons_cons]
    exact hz

theorem chain_filter (bs : List LBatch) : ∀ n a, log_chainB n bs = true →
    (bs.any fun b => b.base == a) = true →
    (((bs.filter fun b => decide (b.base < a)).getLast?).map LBatch.last
        = if n < a then some (a - 1) else none) ∧
      (bs.filter fun b => decide (b.base < a))
        = bs.filter fun b => decide (b.last < a) := by
  induction bs with
  | nil =>
    intro n a _ hany
    simp at hany
  | cons b rest ih =>
    intro n a hch hany
    rw [log_chainB] at hch
    rcases Bool.and_eq_true _ _ |>.mp hch with ⟨h12, hch'⟩
    rcases Bool.and_eq_true _ _ |>.mp h12 with ⟨hbase, hle⟩
    have hbase' : b.base = n := beq_iff_eq.mp hbase
    have hle' : b.base ≤ b.last := of_decide_eq_true hle
    by_cases hcase : b.base = a
    · have hrest_lb := log_chainB_lb rest (b.last + 1) hch'
      have hfb : (b :: rest).filter (fun x => decide (x.base < a)) = [] := by
        rw [List.filter_eq_nil_iff]
        intro x hx
        rcases List.mem_cons.mp hx with hx | hx
        · rw [hx]
          simp [hcase]
        · obtain ⟨h1, _⟩ := hrest_lb x hx
          have : a < x.base := by
            calc a = b.base := hcase.symm
              _ ≤ b.last := hle'
              _ < b.last + 1 := Nat.lt_succ_self _
              _ ≤ x.base := h1
          simp
          exact Nat.le_of_lt this
      have hfl : (b :: rest).filter (fun x => decide (x.last < a)) = [] := by
        rw [List.filter_eq_nil_iff]
        intro x hx
        rcases List.mem_cons.mp hx with hx | hx
        · rw [hx]
          have : a ≤ b.last := hcase ▸ hle'
          simp
          exact this
        · obtain ⟨h1, h2⟩ := hrest_lb x hx
          have hax : a < x.last + 1 := by
            calc a = b.base := hcase.symm
              _ ≤ b.last := hle'
              _ < b.last + 1 := Nat.lt_succ_self _
              _ ≤ x.base := h1
              _ ≤ x.last + 1 := Nat.le_succ_of_le h2
          simp
          exact Nat.lt_succ_iff.mp hax
      have hna : ¬ (n < a) := by
        rw [← hbase', ← hcase]
        exact Nat.lt_irrefl _
      rw [hfb, hfl, if_neg hna]
      exact ⟨rfl, rfl⟩
    · have hany' : (rest.any fun x => x.base == a) = true := by
        have hsplit : b.base = a ∨ ∃ x ∈ rest, x.base = a := by simpa using hany
        rcases hsplit with h | h
        · exact absurd h hcase
        · obtain ⟨x, hx, hxa⟩ := h
          exact List.any_eq_true.mpr ⟨x, hx, beq_iff_eq.mpr hxa⟩
      obtain ⟨x, hx, hxa⟩ := List.any_eq_true.mp hany'
      have hxa' : x.base = a := beq_iff_eq.mp hxa
      have hblt : b.last + 1 ≤ a := by
        obtain ⟨h1, _⟩ := log_chainB_lb rest (b.last + 1) hch' x hx
        rw [← hxa']
        exact h1
      have hblta : b.last < a := hblt
      have hbba : b.base < a := Nat.lt_of_le_of_lt hle' hblta
      obtain ⟨hga, hfe⟩ := ih (b.last + 1) a hch' hany'
      have hfb : (b :: rest).filter (fun x => decide (x.base < a)) =
          b :: rest.filter (fun x => decide (x.base < a)) :=
        List.filter_cons_of_pos (by simpa using hbba)
      have hfl : (b :: rest).filter (fun x => decide (x.last < a)) =
          b :: rest.filter (fun x => decide (x.last < a)) :=
        List.filter_cons_of_pos (by simpa using hblta)
      constructor
      · rw [hfb, if_pos (hbase' ▸ hbba)]
        by_cases hlt : b.last + 1 < a
        · rw [if_pos hlt] at hga
          obtain ⟨bl, hbl, hbll⟩ := Option.map_eq_some'.mp hga
          have hfr_ne : rest.filter (fun x => decide (x.base < a)) ≠ [] := by
            intro hcontra
            rw [hcontra] at hbl
            simp at hbl
          obtain ⟨y, ys, hys⟩ := List.exists_cons_of_ne_nil hfr_ne
          rw [hys, List.getLast?_cons_cons, ← hys, hbl]
          simp [hbll]
        · have haeq : a = b.last + 1 := Nat.le_antisymm (Nat.le_of_not_lt hlt) hblt
          rw [if_neg hlt] at hga
          have hfr_nil : rest.filter (fun x => decide (x.base < a)) = [] := by
            rcases hcontra : rest.filter (fun x => decide (x.base < a)) with _ | ⟨y, ys⟩
            · exact hcontra
            · obtain ⟨z, hz⟩ := getLast?_cons_is_some y ys
              rw [hcontra, hz] at hga
              simp at hga
          rw [hfr_nil]
          simp [haeq]
      · rw [hfb, hfl, hfe]

/-- C2 (amended): for a well-formed log with dirty offset `d` and a
truncation point `at ≤ d` that is aligned — `at` is 0 or the base offset of
one of the log's batches — `truncate(at)` behaves as the claim states:
`at = 0` clears the log and sets the invalid-offset sentinel; `at > 0`
leaves dirty and committed offsets at `at - 1` and keeps exactly the
batches whose last offset is below `at`. (When `at` falls strictly inside
a batch, the straddling batch survives, so the original claim fails.) -/
theorem truncate_aligned (l : SpecLog) (d a : Nat)
    (hwf : l.wfB = true) (hd : l.dirty = some d) (ha : a ≤ d)
    (halign : a = 0 ∨ (l.batches.any fun b => b.base == a) = true) :
    (a = 0 → (spec_truncate l a).batches = [] ∧ (spec_truncate l a).dirty = none ∧
        (spec_truncate l a).committed = none) ∧
      (0 < a → (spec_truncate l a).dirty = some (a - 1) ∧
        (spec_truncate l a).committed = some (a - 1) ∧
        (spec_truncate l a).batches = l.batches.filter fun b => decide (b.last < a)) := by
  constructor
  · intro h0
    subst h0
    have hkept : l.batches.filter (fun b => decide (b.base < 0)) = [] := by
      rw [List.filter_eq_nil_iff]
      intro x _
      simp
    refine ⟨?_, ?_, ?_⟩
    · show l.batches.filter (fun b => decide (b.base < 0)) = []
      exact hkept
    · show ((l.batches.filter fun b => decide (b.base < 0)).getLast?).map
          LBatch.last = none
      rw [hkept]
      rfl
    · show ((l.batches.filter fun b => decide (b.base < 0)).getLast?).map
          LBatch.last = none
      rw [hkept]
      rfl
  · intro hpos
    rcases halign with h0 | hany
    · exact absurd h0 (Nat.ne_of_gt hpos)
    · have hch : log_chainB 0 l.batches = true := by
        rcases Bool.and_eq_true _ _ |>.mp hwf with ⟨h1, _⟩
        exact h1
      obtain ⟨hga, hfe⟩ := chain_filter l.batches 0 a hch hany
      rw [if_pos hpos] at hga
      refine ⟨?_, ?_, ?_⟩
      · show ((l.batches.filter fun b => decide (b.base < a)).getLast?).map
            LBatch.last = some (a - 1)
        exact hga
      · show ((l.batches.filter fun b => decide (b.base < a)).getLast?).map
            LBatch.last = some (a - 1)
        exact hga
      · show (l.batches.filter fun b => decide (b.base < a)) = _
        exact hfe

/-- C2 witness: a log with batches 0..1 and 2..3 (dirty offset 3), truncated
at the aligned offset 2: the first batch survives, dirty and committed
offsets become 1. -/
theorem truncate_aligned_witness :
    (SpecLog.mk [LBatch.mk 0 1, LBatch.mk 2 3] (some 3) (some 3)).wfB = true ∧
      (2 : Nat) ≤ 3 ∧
      ((2 : Nat) = 0 →
        (spec_truncate (SpecLog.mk [LBatch.mk 0 1, LBatch.mk 2 3] (some 3) (some 3))
            2).batches = [] ∧
          (spec_truncate (SpecLog.mk [LBatch.mk 0 1, LBatch.mk 2 3] (some 3) (some 3))
            2).dirty = none ∧
          (spec_truncate (SpecLog.mk [LBatch.mk 0 1, LBatch.mk 2 3] (some 3) (some 3))
            2).committed = none) ∧
      ((0 : Nat) < 2 →
        (spec_truncate (SpecLog.mk [LBatch.mk 0 1, LBatch.mk 2 3] (some 3) (some 3))
            2).dirty = some (2 - 1) ∧
          (spec_truncate (SpecLog.mk [LBatch.mk 0 1, LBatch.mk 2 3] (some 3) (some 3))
            2).committed = some (2 - 1) ∧
          (spec_truncate (SpecLog.mk [LBatch.mk 0 1, LBatch.mk 2 3] (some 3) (some 3))
            2).batches =
            (SpecLog.mk [LBatch.mk 0 1, LBatch.mk 2 3] (some 3) (some 3)).batches.filter
              fun b => decide (b.last < 2)) := by
  have h := truncate_aligned
    (SpecLog.mk [LBatch.mk 0 1, LBatch.mk 2 3] (some 3) (some 3)) 3 2
    (by decide) rfl (by decide) (Or.inr (by decide))
  exact ⟨by decide, by decide, h.1, h.2⟩
